import Mathlib

/-!
Shallow embedding of the mining simulation (main.cpp together with the
simulation header): the block and miner data model, the miner state
machine (FoundBlock, UnpublishedBlocks, SelfishBlocks, PublishedChain,
MaybeReorg, MaybeSelfishReveal, NotifyBestChain), the best-published-chain
scan and the block-drain step of the simulation loop, block-finder
selection (PickFinder) and the two statistics reducers (MinerStats and
Miner::BlocksFoundShare).

Machine integers are modelled as Nat / Int, with an explicit reduction
modulo 2^64 where the C++ code relies on unsigned 64-bit wraparound
(the PickFinder accumulator).  Millisecond times are Int, matching the
signed 64-bit representation of std::chrono::milliseconds.  The doubles
produced by the RNG (rng.exporand) are abstracted as exact rationals and
passed as explicit inputs; IEEE division by zero (NaN / infinity) is
modelled by Option.
-/

namespace MiningSim

/-- Value of std::chrono::milliseconds::max(), i.e. 2^63 - 1: the sentinel
arrival time used for the not-yet-published blocks of a selfish miner. -/
def SELFISH_ARRIVAL : Int := 9223372036854775807

/-- Value of std::numeric_limits<uint64_t>::max() / 100 (integer division):
the multiplier mapping integer percentages to the uint64_t range. -/
def PERC_MULTIPLIER : Nat := 18446744073709551615 / 100

/-- The modulus 2^64 of uint64_t arithmetic. -/
def U64_MOD : Nat := 18446744073709551616

/-- Value of std::numeric_limits<unsigned>::max(), the miner id of the
genesis block (created by no miner). -/
def GENESIS_ID : Nat := 4294967295

/-- A block: which miner created it and at what point all other miners
will have received it. -/
structure Block where
  miner_id : Nat
  arrival : Int
deriving DecidableEq, Inhabited

/-- The genesis block: not created by any miner, received immediately. -/
def Block.Genesis : Block := ⟨GENESIS_ID, 0⟩

/-- A miner: identifier, hashrate share, propagation delay, local chain,
stale-block counter and strategy flag. -/
structure Miner where
  id : Nat
  perc : Nat
  propagation : Int
  chain : List Block
  stale_blocks : Nat
  is_selfish : Bool
deriving DecidableEq

/-- The Miner constructor: a fresh miner starts with the genesis-only chain
and a zero stale counter. -/
def Miner.init (id perc : Nat) (prop : Int) (selfish : Bool) : Miner :=
  ⟨id, perc, prop, [Block.Genesis], 0, selfish⟩

/-- Length of the private branch of a selfish miner: scan the chain from the
tail, counting blocks whose arrival is exactly the sentinel, stopping at
the first one that is not. -/
def Miner.SelfishBlocks (m : Miner) : Nat :=
  (m.chain.reverse.takeWhile (fun b => b.arrival == SELFISH_ARRIVAL)).length

/-- Overwrite the arrival time of the last block of a chain
(chain.back().arrival = t in the C++ code). -/
def setLastArrival (t : Int) : List Block → List Block
  | [] => []
  | [b] => [⟨b.miner_id, t⟩]
  | b :: bs => b :: setLastArrival t bs

/-- Add a block found at the given block time to the local chain of this miner, i.e. its
chain.  A selfish miner mines on top of its private chain, except that
when it wins a 1-block race it publishes both blocks. -/
def Miner.FoundBlock (m : Miner) (block_time : Int) (best_chain_size : Nat) : Miner :=
  if m.is_selfish then
    if m.SelfishBlocks = 1 ∧ best_chain_size = m.chain.length then
      { m with chain := setLastArrival (block_time + m.propagation) m.chain
                          ++ [⟨m.id, block_time + m.propagation⟩] }
    else
      { m with chain := m.chain ++ [⟨m.id, SELFISH_ARRIVAL⟩] }
  else
    { m with chain := m.chain ++ [⟨m.id, block_time + m.propagation⟩] }

/-- Count the not-yet-propagated blocks of the local chain: scan from the
tail, stopping at the first block with arrival <= cur_time. -/
def Miner.UnpublishedBlocks (m : Miner) (cur_time : Int) : Nat :=
  (m.chain.reverse.takeWhile (fun b => decide (cur_time < b.arrival))).length

/-- The chain without the blocks that have not yet propagated. -/
def Miner.PublishedChain (m : Miner) (cur_time : Int) : List Block :=
  m.chain.take (m.chain.length - m.UnpublishedBlocks cur_time)

/-- The index loop of MaybeReorg, walking the local chain and the best
chain position by position: past the end of the local chain the best
chain has its block appended; a differing block is overwritten (counting it
as stale if this miner created it); an equal block is kept.  The second
component is the number of stale blocks recorded. -/
def reorgAux (id : Nat) : List Block → List Block → List Block × Nat
  | c, [] => (c, 0)
  | [], b :: bs =>
    let r := reorgAux id [] bs
    (b :: r.1, r.2)
  | x :: c, b :: bs =>
    let r := reorgAux id c bs
    if x = b then (x :: r.1, r.2)
    else (b :: r.1, if x.miner_id = id then r.2 + 1 else r.2)

/-- Replace our chain if the fully-propagated chain of another miner is longer. -/
def Miner.MaybeReorg (m : Miner) (best_chain : List Block) : Miner :=
  if best_chain.length ≤ m.chain.length then m
  else
    let r := reorgAux m.id m.chain best_chain
    { m with chain := r.1, stale_blocks := m.stale_blocks + r.2 }

/-- Overwrite the arrival of the block at the given index, leaving the
rest of the chain unchanged (chain.at(j).arrival = t in the C++ code). -/
def bumpArrival (t : Int) : List Block → Nat → List Block
  | [], _ => []
  | b :: bs, 0 => ⟨b.miner_id, t⟩ :: bs
  | b :: bs, j + 1 => b :: bumpArrival t bs j

/-- The broadcast loop of MaybeSelfishReveal: for i in 0..n-1 set the
arrival of the block at index start + i. -/
def revealLoop (t : Int) (c : List Block) (start : Nat) : Nat → List Block
  | 0 => c
  | n + 1 => bumpArrival t (revealLoop t c start n) (start + n)

/-- The number of private blocks MaybeSelfishReveal publishes once the
public chain is catching up: the lead deficit, or everything in the
special case of a significant lead reduced to one block. -/
def revealCount (m : Miner) (best_len : Nat) : Nat :=
  if 1 < m.SelfishBlocks ∧ m.chain.length - best_len = 1 then m.SelfishBlocks
  else m.SelfishBlocks - (m.chain.length - best_len)

/-- If this miner follows the selfish mining strategy, choose whether to
selectively reveal some blocks (worst-case Gamma = 0 strategy of the
Eyal-Sirer paper). -/
def Miner.MaybeSelfishReveal (m : Miner) (best_chain : List Block) (cur_time : Int) : Miner :=
  if !m.is_selfish then m
  else if best_chain.length > m.chain.length then m
  else if m.SelfishBlocks > m.chain.length - best_chain.length then
    { m with chain := revealLoop (cur_time + m.propagation) m.chain
                        (m.chain.length - m.SelfishBlocks)
                        (revealCount m best_chain.length) }
  else m

/-- Let this miner know about the longest published chain. -/
def Miner.NotifyBestChain (m : Miner) (best_chain : List Block) (cur_time : Int) : Miner :=
  (m.MaybeSelfishReveal best_chain cur_time).MaybeReorg best_chain

/-- Arrival time of the last block of a chain (best_chain.back().arrival);
0 for the empty chain, on which the C++ code never calls back(). -/
def lastArrival (c : List Block) : Int :=
  match c.getLast? with
  | some b => b.arrival
  | none => 0

/-- One step of the best-chain scan of the simulation loop: replace the
best chain so far if the published chain of this miner has more work, or the
same work and a strictly earlier tip (first-seen rule). -/
def bestChainStep (cur_time : Int) (best : List Block) (m : Miner) : List Block :=
  let pub := m.PublishedChain cur_time
  if pub.length > best.length ∨
      (pub.length = best.length ∧ pub ≠ [] ∧ lastArrival pub < lastArrival best) then
    pub
  else best

/-- The best published chain among all miners, scanning the miner vector
in order starting from the empty chain. -/
def BestChain (miners : List Miner) (cur_time : Int) : List Block :=
  miners.foldl (bestChainStep cur_time) []

/-- The accumulator walk of PickFinder: add perc * PERC_MULTIPLIER for
each miner, with uint64_t wraparound, and return the first miner whose
running sum exceeds the random draw.  Falling off the end is the
assertion failure of the C++ code, modelled as none. -/
def pickAux (r : Nat) : Nat → List Miner → Option Miner
  | _, [] => none
  | i, m :: ms =>
    let j := (i + m.perc * PERC_MULTIPLIER) % U64_MOD
    if r < j then some m else pickAux r j ms

/-- Pick which miner found the last block, from the uniform 64-bit draw r
(rng.rand64() is abstracted as the explicit input r). -/
def PickFinder (miners : List Miner) (r : Nat) : Option Miner :=
  pickAux r 0 miners

/-- Expected time between blocks in nanoseconds:
std::chrono::nanoseconds(BLOCK_INTERVAL).count() for BLOCK_INTERVAL = 600 s,
the mean handed to rng.exporand by NextBlockInterval. -/
def BLOCK_INTERVAL_NS : Nat := 600000000000

/-- The C library function llround: round half away from zero to an integer.  The double
argument is abstracted as an exact rational. -/
def llround (x : ℚ) : Int :=
  if 0 ≤ x then ⌊x + (1 : ℚ) / 2⌋ else ⌈x - (1 : ℚ) / 2⌉

/-- NextBlockInterval as a function of the value returned by
rng.exporand (in nanoseconds, abstracted as an exact rational): llround
to whole nanoseconds, then duration_cast to milliseconds, which for the
nonnegative values at hand truncates towards zero. -/
def NextBlockIntervalModel (x : ℚ) : Int :=
  Int.tdiv (llround x) 1000000

/-- Overwrite the miner at the given index of the miner vector
(the reference returned by PickFinder, abstracted by its index). -/
def modifyIdx (f : Miner → Miner) : Nat → List Miner → List Miner
  | _, [] => []
  | 0, m :: ms => f m :: ms
  | k + 1, m :: ms => m :: modifyIdx f k ms

/-- The drain loop of the simulation: while cur_time = next_block_time,
let the picked miner find a block at next_block_time and advance
next_block_time by the next interval.  The finder choices and intervals
consumed from the two RNGs are abstracted as an explicit event list;
running out of events while still draining is modelled as none. -/
def drain (cur_time : Int) (best_chain_size : Nat) :
    List Miner → Int → List (Nat × Int) → Option (List Miner × Int)
  | miners, nbt, [] => if cur_time = nbt then none else some (miners, nbt)
  | miners, nbt, (k, iv) :: evs =>
    if cur_time = nbt then
      drain cur_time best_chain_size
        (modifyIdx (fun m => m.FoundBlock nbt best_chain_size) k miners)
        (nbt + iv) evs
    else some (miners, nbt)

/-- Division of the (exactly represented) doubles of the statistics code:
IEEE division by zero produces an infinity or NaN, modelled as none. -/
def qdivOpt (a b : ℚ) : Option ℚ :=
  if b = 0 then none else some (a / b)

/-- Statistics about the revenue of a miner in function of the best chain. -/
structure MinerStats where
  blocks_found : Nat
  blocks_share : Option ℚ
  stale_rate : Option ℚ
deriving DecidableEq

/-- The MinerStats constructor: count of the blocks of this miner in the best
chain, its share of the non-genesis blocks, and its stale rate, the two
ratios being zero when no block was found. -/
def MinerStats.make (m : Miner) (best_chain : List Block) : MinerStats :=
  let found := (best_chain.filter (fun b => b.miner_id == m.id)).length
  { blocks_found := found
    blocks_share :=
      if found = 0 then some 0
      else qdivOpt (found : ℚ) ((best_chain.length : ℚ) - 1)
    stale_rate :=
      if found = 0 then some 0
      else qdivOpt (m.stale_blocks : ℚ) (found : ℚ) }

/-- Count of published blocks found by this miner. -/
def Miner.BlocksFound (m : Miner) (cur_time : Int) : Nat :=
  (m.chain.filter (fun b => b.miner_id == m.id && decide (b.arrival ≤ cur_time))).length

/-- Compute the share of (published) blocks found by this miner; the
denominator excludes the genesis block and carries no zero guard. -/
def Miner.BlocksFoundShare (m : Miner) (cur_time : Int) : Option ℚ :=
  let published := m.chain.length - m.UnpublishedBlocks cur_time
  qdivOpt (m.BlocksFound cur_time : ℚ) ((published : ℚ) - 1)

/-- The chain invariants of the specification: arrivals of the published
part are non-decreasing and carry no sentinel, the sentinel blocks
forming a contiguous tail. -/
def chainInv (c : List Block) : Prop :=
  List.Chain' (fun a b => a.arrival ≤ b.arrival)
    (c.take (c.length - (c.reverse.takeWhile (fun b => b.arrival == SELFISH_ARRIVAL)).length)) ∧
  ∀ b ∈ c.take (c.length - (c.reverse.takeWhile (fun b => b.arrival == SELFISH_ARRIVAL)).length),
    b.arrival ≠ SELFISH_ARRIVAL

/-- States reachable by a miner through the chain-mutating operations,
exactly as quantified by the specification claim: FoundBlock with
arbitrary arguments, MaybeSelfishReveal with arbitrary arguments, and
MaybeReorg restricted to best chains whose arrivals are all finite (as
published chains are). -/
inductive ReachableF : Miner → Prop where
  | init (id perc : Nat) (prop : Int) (selfish : Bool) :
      ReachableF (Miner.init id perc prop selfish)
  | found (m : Miner) (t : Int) (bcs : Nat) :
      ReachableF m → ReachableF (m.FoundBlock t bcs)
  | reveal (m : Miner) (best : List Block) (cur : Int) :
      ReachableF m → ReachableF (m.MaybeSelfishReveal best cur)
  | reorg (m : Miner) (best : List Block) :
      (∀ b ∈ best, b.arrival ≠ SELFISH_ARRIVAL) →
      ReachableF m → ReachableF (m.MaybeReorg best)

/-- Reachable states with the additional restriction that every
FoundBlock call has block_time + propagation distinct from the sentinel
arrival, as holds for all block times occurring in a simulation run. -/
inductive ReachableB : Miner → Prop where
  | init (id perc : Nat) (prop : Int) (selfish : Bool) :
      ReachableB (Miner.init id perc prop selfish)
  | found (m : Miner) (t : Int) (bcs : Nat) :
      t + m.propagation ≠ SELFISH_ARRIVAL →
      ReachableB m → ReachableB (m.FoundBlock t bcs)
  | reveal (m : Miner) (best : List Block) (cur : Int) :
      ReachableB m → ReachableB (m.MaybeSelfishReveal best cur)
  | reorg (m : Miner) (best : List Block) :
      (∀ b ∈ best, b.arrival ≠ SELFISH_ARRIVAL) →
      ReachableB m → ReachableB (m.MaybeReorg best)

/-- The strict preference of the best-chain scan: strictly more work, or
equal work and a strictly earlier tip. -/
def beats (p b : List Block) : Prop :=
  p.length > b.length ∨
    (p.length = b.length ∧ p ≠ [] ∧ lastArrival p < lastArrival b)

instance (p b : List Block) : Decidable (beats p b) :=
  inferInstanceAs (Decidable (p.length > b.length ∨
    (p.length = b.length ∧ p ≠ [] ∧ lastArrival p < lastArrival b)))

end MiningSim

/-! Generic list helper lemmas. -/

theorem getD_concat_length {α : Type} (l : List α) (b d : α) :
    (l ++ [b]).getD l.length d = b := by
  rw [List.getD_eq_getElem?_getD, List.getElem?_append_right (Nat.le_refl _)]
  simp

theorem takeWhile_getD_true {α : Type} (p : α → Bool) (d : α) :
    ∀ (l : List α) (i : Nat), i < (l.takeWhile p).length → p (l.getD i d) = true
  | [], i => by simp
  | a :: t, i => by
    intro h
    rw [List.takeWhile_cons] at h
    by_cases hp : p a = true
    · rw [if_pos hp] at h
      cases i with
      | zero => simpa using hp
      | succ j =>
        rw [List.getD_cons_succ]
        exact takeWhile_getD_true p d t j (by simpa using h)
    · rw [if_neg hp] at h
      simp at h

theorem takeWhile_getD_boundary {α : Type} (p : α → Bool) (d : α) :
    ∀ l : List α, (l.takeWhile p).length < l.length →
      p (l.getD (l.takeWhile p).length d) = false
  | [], h => by simp at h
  | a :: t, h => by
    rw [List.takeWhile_cons] at h ⊢
    by_cases hp : p a = true
    · rw [if_pos hp] at h ⊢
      simp only [List.length_cons, Nat.add_lt_add_iff_right] at h
      simp only [List.length_cons, List.getD_cons_succ]
      exact takeWhile_getD_boundary p d t h
    · rw [if_neg hp]
      simpa using hp

theorem takeWhile_length_le {α : Type} (p : α → Bool) (l : List α) :
    (l.takeWhile p).length ≤ l.length :=
  (List.takeWhile_sublist p).length_le

theorem getD_reverse {α : Type} (l : List α) (d : α) (i : Nat) (h : i < l.length) :
    l.reverse.getD i d = l.getD (l.length - 1 - i) d := by
  rw [List.getD_eq_getElem?_getD, List.getD_eq_getElem?_getD,
    List.getElem?_reverse (by simpa using h)]

namespace MiningSim

/-! Facts about the selfish suffix. -/

theorem SelfishBlocks_le_length (m : Miner) : m.SelfishBlocks ≤ m.chain.length := by
  unfold Miner.SelfishBlocks
  calc (m.chain.reverse.takeWhile (fun b => b.arrival == SELFISH_ARRIVAL)).length
      ≤ m.chain.reverse.length := takeWhile_length_le _ _
    _ = m.chain.length := List.length_reverse _

theorem selfishSuffix_sentinel (m : Miner) (j : Nat)
    (h1 : m.chain.length - m.SelfishBlocks ≤ j) (h2 : j < m.chain.length) :
    (m.chain.getD j default).arrival = SELFISH_ARRIVAL := by
  have hle := SelfishBlocks_le_length m
  have hSB : m.SelfishBlocks
      = (m.chain.reverse.takeWhile (fun b => b.arrival == SELFISH_ARRIVAL)).length := rfl
  have ht := takeWhile_getD_true (fun b => b.arrival == SELFISH_ARRIVAL) default
    m.chain.reverse (m.chain.length - 1 - j) (by rw [← hSB]; omega)
  rw [getD_reverse m.chain default _ (by omega)] at ht
  rw [show m.chain.length - 1 - (m.chain.length - 1 - j) = j from by omega] at ht
  simpa using ht

theorem selfishSuffix_boundary (m : Miner) (h : m.SelfishBlocks < m.chain.length) :
    (m.chain.getD (m.chain.length - m.SelfishBlocks - 1) default).arrival ≠ SELFISH_ARRIVAL := by
  have hSB : m.SelfishBlocks
      = (m.chain.reverse.takeWhile (fun b => b.arrival == SELFISH_ARRIVAL)).length := rfl
  have hb := takeWhile_getD_boundary (fun b => b.arrival == SELFISH_ARRIVAL) default
    m.chain.reverse (by rw [List.length_reverse, ← hSB]; exact h)
  rw [← hSB] at hb
  rw [getD_reverse m.chain default m.SelfishBlocks (by omega)] at hb
  simp only [beq_eq_false_iff_ne] at hb
  rw [show m.chain.length - m.SelfishBlocks - 1 = m.chain.length - 1 - m.SelfishBlocks
    from by omega]
  exact hb

theorem SelfishBlocks_ne_of_nil (m : Miner) (h : m.chain = []) : m.SelfishBlocks = 0 := by
  unfold Miner.SelfishBlocks
  rw [h]
  rfl

/-! Facts about setLastArrival. -/

theorem setLastArrival_length (t : Int) :
    ∀ c : List Block, (setLastArrival t c).length = c.length
  | [] => rfl
  | [_] => rfl
  | b :: b2 :: bs => by
    have ih := setLastArrival_length t (b2 :: bs)
    simp only [setLastArrival, List.length_cons] at ih ⊢
    omega

theorem setLastArrival_getD_lt (t : Int) :
    ∀ (c : List Block) (i : Nat), i + 1 < c.length →
      (setLastArrival t c).getD i default = c.getD i default
  | [], i => by simp
  | [_], i => by simp
  | b :: b2 :: bs, 0 => by
    intro _
    rfl
  | b :: b2 :: bs, i + 1 => by
    intro h
    show (setLastArrival t (b2 :: bs)).getD i default = (b2 :: bs).getD i default
    exact setLastArrival_getD_lt t (b2 :: bs) i (by simpa using Nat.lt_of_succ_lt_succ h)

theorem setLastArrival_getD_last (t : Int) :
    ∀ c : List Block, c ≠ [] →
      (setLastArrival t c).getD (c.length - 1) default
        = ⟨(c.getD (c.length - 1) default).miner_id, t⟩
  | [], h => absurd rfl h
  | [b], _ => rfl
  | b :: b2 :: bs, _ => by
    have ih := setLastArrival_getD_last t (b2 :: bs) (by simp)
    simp only [List.length_cons, Nat.add_sub_cancel] at ih ⊢
    rw [show setLastArrival t (b :: b2 :: bs) = b :: setLastArrival t (b2 :: bs) from rfl]
    rw [List.getD_cons_succ, List.getD_cons_succ]
    exact ih

/-- C1: for a selfish miner, FoundBlock computes the race condition
(SelfishBlocks = 1 and best_chain_size = chain length); in a race it
rewrites the arrival of the last private block to block_time + propagation and
appends one block with the same miner id and the same arrival; otherwise it
appends exactly one block with its own miner id and the sentinel arrival.
For an honest miner it appends exactly one block with arrival
block_time + propagation.  No other block and no other field changes. -/
theorem FoundBlock_spec_C1 (m : Miner) (t : Int) (bcs : Nat) :
    (m.FoundBlock t bcs).id = m.id ∧
    (m.FoundBlock t bcs).perc = m.perc ∧
    (m.FoundBlock t bcs).propagation = m.propagation ∧
    (m.FoundBlock t bcs).stale_blocks = m.stale_blocks ∧
    (m.FoundBlock t bcs).is_selfish = m.is_selfish ∧
    (m.is_selfish = true →
      ((m.SelfishBlocks = 1 ∧ bcs = m.chain.length) →
        (m.FoundBlock t bcs).chain.length = m.chain.length + 1 ∧
        (∀ i, i + 1 < m.chain.length →
          (m.FoundBlock t bcs).chain.getD i default = m.chain.getD i default) ∧
        ((m.FoundBlock t bcs).chain.getD (m.chain.length - 1) default).miner_id
          = (m.chain.getD (m.chain.length - 1) default).miner_id ∧
        ((m.FoundBlock t bcs).chain.getD (m.chain.length - 1) default).arrival
          = t + m.propagation ∧
        (m.FoundBlock t bcs).chain.getD m.chain.length default
          = ⟨m.id, t + m.propagation⟩) ∧
      (¬(m.SelfishBlocks = 1 ∧ bcs = m.chain.length) →
        (m.FoundBlock t bcs).chain = m.chain ++ [⟨m.id, SELFISH_ARRIVAL⟩])) ∧
    (m.is_selfish = false →
      (m.FoundBlock t bcs).chain = m.chain ++ [⟨m.id, t + m.propagation⟩]) := by
  by_cases hs : m.is_selfish
  · by_cases hr : m.SelfishBlocks = 1 ∧ bcs = m.chain.length
    · have hne : m.chain ≠ [] := by
        intro hnil
        have := SelfishBlocks_ne_of_nil m hnil
        omega
      have hlen : 1 ≤ m.chain.length := by
        cases hc : m.chain with
        | nil => exact absurd hc hne
        | cons a l => simp [hc]
      have hchain : (m.FoundBlock t bcs).chain
          = setLastArrival (t + m.propagation) m.chain ++ [⟨m.id, t + m.propagation⟩] := by
        simp [Miner.FoundBlock, hs, hr]
      refine ⟨by simp [Miner.FoundBlock, hs, hr], by simp [Miner.FoundBlock, hs, hr],
        by simp [Miner.FoundBlock, hs, hr], by simp [Miner.FoundBlock, hs, hr],
        by simp [Miner.FoundBlock, hs, hr], fun _ => ⟨fun _ => ?_, fun hnr => absurd hr hnr⟩,
        fun hh => by rw [hs] at hh; cases hh⟩
      have hsl := setLastArrival_length (t + m.propagation) m.chain
      refine ⟨by simp [hchain, hsl], fun i hi => ?_, ?_, ?_, ?_⟩
      · rw [hchain, List.getD_append _ _ _ _ (by omega : i < (setLastArrival (t + m.propagation) m.chain).length)]
        exact setLastArrival_getD_lt (t + m.propagation) m.chain i hi
      · rw [hchain, List.getD_append _ _ _ _ (by omega : m.chain.length - 1 < (setLastArrival (t + m.propagation) m.chain).length)]
        rw [setLastArrival_getD_last (t + m.propagation) m.chain hne]
      · rw [hchain, List.getD_append _ _ _ _ (by omega : m.chain.length - 1 < (setLastArrival (t + m.propagation) m.chain).length)]
        rw [setLastArrival_getD_last (t + m.propagation) m.chain hne]
      · rw [hchain, show m.chain.length = (setLastArrival (t + m.propagation) m.chain).length from hsl.symm]
        exact getD_concat_length _ _ _
    · refine ⟨by simp [Miner.FoundBlock, hs, hr], by simp [Miner.FoundBlock, hs, hr],
        by simp [Miner.FoundBlock, hs, hr], by simp [Miner.FoundBlock, hs, hr],
        by simp [Miner.FoundBlock, hs, hr], fun _ => ⟨fun hr2 => absurd hr2 hr, fun _ => ?_⟩,
        fun hh => by rw [hs] at hh; cases hh⟩
      simp [Miner.FoundBlock, hs, hr]
  · refine ⟨by simp [Miner.FoundBlock, hs], by simp [Miner.FoundBlock, hs],
      by simp [Miner.FoundBlock, hs], by simp [Miner.FoundBlock, hs],
      by simp [Miner.FoundBlock, hs], fun hh => by rw [hh] at hs; exact absurd rfl hs,
      fun _ => by simp [Miner.FoundBlock, hs]⟩

/-- Witness for C1: the honest miner with id 0 appends one block with
arrival block_time + propagation. -/
theorem FoundBlock_spec_C1_witness :
    ((Miner.init 0 30 20000 false).FoundBlock 5 1).chain
      = [Block.Genesis] ++ [⟨0, 5 + 20000⟩] :=
  (FoundBlock_spec_C1 (Miner.init 0 30 20000 false) 5 1).2.2.2.2.2.2 rfl

/-! Facts about the reorg loop. -/

theorem reorgAux_nil_snd (id : Nat) : ∀ bs : List Block, (reorgAux id [] bs).2 = 0
  | [] => rfl
  | b :: bs => by
    have ih := reorgAux_nil_snd id bs
    simp [reorgAux, ih]

theorem reorgAux_fst (id : Nat) :
    ∀ c best : List Block, c.length ≤ best.length → (reorgAux id c best).1 = best
  | [], [] => fun _ => rfl
  | x :: c, [] => by intro h; simp at h
  | [], b :: bs => by
    intro _
    have ih := reorgAux_fst id [] bs (by simp)
    simp [reorgAux, ih]
  | x :: c, b :: bs => by
    intro h
    have ih := reorgAux_fst id c bs (by simpa using h)
    by_cases hxb : x = b
    · simp [reorgAux, hxb, ih]
    · simp [reorgAux, hxb, ih]

theorem reorgAux_snd (id : Nat) :
    ∀ c best : List Block, c.length ≤ best.length →
      (reorgAux id c best).2 =
        ((List.range c.length).filter (fun i =>
          decide (c.getD i default ≠ best.getD i default ∧
            (c.getD i default).miner_id = id))).length
  | [], best => by
    intro _
    cases best with
    | nil => rfl
    | cons b bs => simp [reorgAux, reorgAux_nil_snd id bs]
  | x :: c, [] => by intro h; simp at h
  | x :: c, b :: bs => by
    intro h
    have ih := reorgAux_snd id c bs (by simpa using h)
    rw [List.length_cons, List.range_succ_eq_map, List.filter_cons, List.filter_map]
    have hps : ((fun i =>
          decide ((x :: c).getD i default ≠ (b :: bs).getD i default ∧
            ((x :: c).getD i default).miner_id = id)) ∘ Nat.succ)
        = (fun i => decide (c.getD i default ≠ bs.getD i default ∧
            (c.getD i default).miner_id = id)) := by
      funext i
      simp [Function.comp, List.getD_cons_succ]
    rw [hps]
    by_cases hxb : x = b
    · have hp0 : decide ((x :: c).getD 0 default ≠ (b :: bs).getD 0 default ∧
          ((x :: c).getD 0 default).miner_id = id) = false := by
        simp [hxb]
      rw [hp0]
      simp only [Bool.false_eq_true, if_false, List.length_map]
      simp [reorgAux, hxb, ih]
    · have hp0 : decide ((x :: c).getD 0 default ≠ (b :: bs).getD 0 default ∧
          ((x :: c).getD 0 default).miner_id = id) = decide (x.miner_id = id) := by
        simp [hxb]
      rw [hp0]
      by_cases hid : x.miner_id = id
      · simp only [hid, decide_True, if_true, List.length_cons, List.length_map]
        simp [reorgAux, hxb, hid, ih]
      · simp only [hid, decide_False, Bool.false_eq_true, if_false, List.length_map]
        simp [reorgAux, hxb, hid, ih]

/-- C3: MaybeReorg leaves the miner unchanged when the best chain is not
longer than its own; otherwise the chain becomes exactly the best chain
(appending past the old length, overwriting where the blocks differ) and
stale_blocks grows by exactly the number of old positions holding a
differing block created by this miner.  No other field changes. -/
theorem MaybeReorg_spec_C3 (m : Miner) (best : List Block) :
    (best.length ≤ m.chain.length → m.MaybeReorg best = m) ∧
    (m.chain.length < best.length →
      (m.MaybeReorg best).id = m.id ∧
      (m.MaybeReorg best).perc = m.perc ∧
      (m.MaybeReorg best).propagation = m.propagation ∧
      (m.MaybeReorg best).is_selfish = m.is_selfish ∧
      (m.MaybeReorg best).chain = best ∧
      (m.MaybeReorg best).stale_blocks = m.stale_blocks +
        ((List.range m.chain.length).filter (fun i =>
          decide (m.chain.getD i default ≠ best.getD i default ∧
            (m.chain.getD i default).miner_id = m.id))).length) := by
  constructor
  · intro h
    simp [Miner.MaybeReorg, h]
  · intro h
    have hnle : ¬ best.length ≤ m.chain.length := by omega
    refine ⟨by simp [Miner.MaybeReorg, hnle], by simp [Miner.MaybeReorg, hnle],
      by simp [Miner.MaybeReorg, hnle], by simp [Miner.MaybeReorg, hnle], ?_, ?_⟩
    · simp only [Miner.MaybeReorg, hnle, if_false]
      exact reorgAux_fst m.id m.chain best (by omega)
    · simp only [Miner.MaybeReorg, hnle, if_false]
      rw [reorgAux_snd m.id m.chain best (by omega)]

/-- Witness for C3: a best chain no longer than the local chain leaves the
miner unchanged. -/
theorem MaybeReorg_spec_C3_witness :
    (Miner.init 0 30 20000 false).MaybeReorg [Block.Genesis] = Miner.init 0 30 20000 false :=
  (MaybeReorg_spec_C3 (Miner.init 0 30 20000 false) [Block.Genesis]).1 (by decide)

/-! Facts about the reveal loop. -/

theorem bumpArrival_length (t : Int) :
    ∀ (c : List Block) (j : Nat), (bumpArrival t c j).length = c.length
  | [], _ => rfl
  | _ :: _, 0 => rfl
  | b :: bs, j + 1 => by
    have ih := bumpArrival_length t bs j
    simp [bumpArrival, ih]

theorem bumpArrival_getD (t : Int) :
    ∀ (c : List Block) (j k : Nat),
      (bumpArrival t c j).getD k default =
        if k = j ∧ j < c.length then ⟨(c.getD j default).miner_id, t⟩
        else c.getD k default
  | [], j, k => by simp [bumpArrival]
  | b :: bs, 0, 0 => by simp [bumpArrival]
  | b :: bs, 0, k + 1 => by simp [bumpArrival]
  | b :: bs, j + 1, 0 => by simp [bumpArrival]
  | b :: bs, j + 1, k + 1 => by
    have ih := bumpArrival_getD t bs j k
    simp only [bumpArrival, List.getD_cons_succ, List.length_cons]
    rw [ih]
    by_cases h : k = j ∧ j < bs.length
    · rw [if_pos h, if_pos (show k + 1 = j + 1 ∧ j + 1 < bs.length + 1 from by omega)]
    · rw [if_neg h, if_neg (show ¬(k + 1 = j + 1 ∧ j + 1 < bs.length + 1) from by omega)]

theorem revealLoop_length (t : Int) (c : List Block) (s : Nat) :
    ∀ n : Nat, (revealLoop t c s n).length = c.length
  | 0 => rfl
  | n + 1 => by
    rw [show revealLoop t c s (n + 1) = bumpArrival t (revealLoop t c s n) (s + n) from rfl]
    rw [bumpArrival_length, revealLoop_length t c s n]

theorem revealLoop_getD (t : Int) (c : List Block) (s : Nat) :
    ∀ n k : Nat,
      (revealLoop t c s n).getD k default =
        if s ≤ k ∧ k < s + n ∧ k < c.length then ⟨(c.getD k default).miner_id, t⟩
        else c.getD k default
  | 0, k => by
    rw [show revealLoop t c s 0 = c from rfl,
      if_neg (show ¬(s ≤ k ∧ k < s + 0 ∧ k < c.length) from by omega)]
  | n + 1, k => by
    rw [show revealLoop t c s (n + 1) = bumpArrival t (revealLoop t c s n) (s + n) from rfl]
    rw [bumpArrival_getD, revealLoop_length]
    by_cases hk1 : k = s + n
    · subst hk1
      rw [revealLoop_getD t c s n (s + n),
        if_neg (show ¬(s ≤ s + n ∧ s + n < s + n ∧ s + n < c.length) from by omega)]
      by_cases h2 : s + n < c.length
      · rw [if_pos ⟨rfl, h2⟩,
          if_pos (show s ≤ s + n ∧ s + n < s + (n + 1) ∧ s + n < c.length from by omega)]
      · rw [if_neg (show ¬(s + n = s + n ∧ s + n < c.length) from by omega),
          if_neg (show ¬(s ≤ s + n ∧ s + n < s + (n + 1) ∧ s + n < c.length) from by omega)]
    · rw [if_neg (show ¬(k = s + n ∧ s + n < c.length) from by omega)]
      rw [revealLoop_getD t c s n k]
      by_cases h2 : s ≤ k ∧ k < s + n ∧ k < c.length
      · rw [if_pos h2, if_pos (show s ≤ k ∧ k < s + (n + 1) ∧ k < c.length from by omega)]
      · rw [if_neg h2, if_neg (show ¬(s ≤ k ∧ k < s + (n + 1) ∧ k < c.length) from by omega)]

theorem revealCount_le (m : Miner) (bl : Nat) : revealCount m bl ≤ m.SelfishBlocks := by
  unfold revealCount
  by_cases h : 1 < m.SelfishBlocks ∧ m.chain.length - bl = 1
  · rw [if_pos h]
  · rw [if_neg h]
    omega

/-- C2: for a selfish miner whose chain satisfies the chain invariants,
MaybeSelfishReveal is a no-op when the best chain is longer or when the
private branch does not exceed the lead; otherwise it rewrites exactly
the oldest revealCount blocks of the private suffix from the sentinel
arrival to cur_time + propagation, where revealCount is the private count
minus the lead, except the whole private count when that count exceeds 1
and the lead is exactly 1.  Chain length, block order, miner ids and all
other positions and fields are unchanged.  For an honest miner it is
always a no-op. -/
theorem MaybeSelfishReveal_spec_C2 (m : Miner) (best : List Block) (cur : Int)
    (hinv : chainInv m.chain) :
    (m.is_selfish = false → m.MaybeSelfishReveal best cur = m) ∧
    (m.is_selfish = true → m.chain.length < best.length →
      m.MaybeSelfishReveal best cur = m) ∧
    (m.is_selfish = true → best.length ≤ m.chain.length →
      m.SelfishBlocks ≤ m.chain.length - best.length →
      m.MaybeSelfishReveal best cur = m) ∧
    (m.is_selfish = true → best.length ≤ m.chain.length →
      m.chain.length - best.length < m.SelfishBlocks →
      (m.MaybeSelfishReveal best cur).id = m.id ∧
      (m.MaybeSelfishReveal best cur).perc = m.perc ∧
      (m.MaybeSelfishReveal best cur).propagation = m.propagation ∧
      (m.MaybeSelfishReveal best cur).stale_blocks = m.stale_blocks ∧
      (m.MaybeSelfishReveal best cur).is_selfish = m.is_selfish ∧
      (m.MaybeSelfishReveal best cur).chain.length = m.chain.length ∧
      (∀ j, j < m.chain.length →
        ((m.chain.length - m.SelfishBlocks ≤ j ∧
          j < m.chain.length - m.SelfishBlocks + revealCount m best.length) →
          (m.chain.getD j default).arrival = SELFISH_ARRIVAL ∧
          (m.MaybeSelfishReveal best cur).chain.getD j default
            = ⟨(m.chain.getD j default).miner_id, cur + m.propagation⟩) ∧
        ((j < m.chain.length - m.SelfishBlocks ∨
          m.chain.length - m.SelfishBlocks + revealCount m best.length ≤ j) →
          (m.MaybeSelfishReveal best cur).chain.getD j default
            = m.chain.getD j default))) := by
  by_cases hs : m.is_selfish
  · refine ⟨fun hh => (by rw [hs] at hh; cases hh), ?_, ?_, ?_⟩
    · intro _ hlt
      have hgt : best.length > m.chain.length := hlt
      simp [Miner.MaybeSelfishReveal, hs, hgt]
    · intro _ hle hpriv
      have h1 : ¬ best.length > m.chain.length := by omega
      have h2 : ¬ m.SelfishBlocks > m.chain.length - best.length := by omega
      simp [Miner.MaybeSelfishReveal, hs, h1, h2]
    · intro _ hle hpriv
      have h1 : ¬ best.length > m.chain.length := by omega
      have h2 : m.SelfishBlocks > m.chain.length - best.length := by omega
      have hchain : (m.MaybeSelfishReveal best cur).chain
          = revealLoop (cur + m.propagation) m.chain
              (m.chain.length - m.SelfishBlocks) (revealCount m best.length) := by
        simp [Miner.MaybeSelfishReveal, hs, h1, h2]
      have hSBle := SelfishBlocks_le_length m
      have hrc := revealCount_le m best.length
      refine ⟨by simp [Miner.MaybeSelfishReveal, hs, h1, h2],
        by simp [Miner.MaybeSelfishReveal, hs, h1, h2],
        by simp [Miner.MaybeSelfishReveal, hs, h1, h2],
        by simp [Miner.MaybeSelfishReveal, hs, h1, h2],
        by simp [Miner.MaybeSelfishReveal, hs, h1, h2],
        by rw [hchain, revealLoop_length], ?_⟩
      intro j hj
      constructor
      · intro hwin
        refine ⟨selfishSuffix_sentinel m j hwin.1 hj, ?_⟩
        rw [hchain, revealLoop_getD, if_pos ⟨hwin.1, by omega, hj⟩]
      · intro hout
        rw [hchain, revealLoop_getD, if_neg (by omega)]
  · have hs2 : m.is_selfish = false := by simpa using hs
    refine ⟨fun _ => by simp [Miner.MaybeSelfishReveal, hs2],
      fun hh => by rw [hh] at hs; exact absurd rfl hs,
      fun hh => by rw [hh] at hs; exact absurd rfl hs,
      fun hh => by rw [hh] at hs; exact absurd rfl hs⟩

theorem chainInv_genesis_only : chainInv [Block.Genesis] := by
  have h : (List.takeWhile (fun b => b.arrival == SELFISH_ARRIVAL)
      ([Block.Genesis].reverse)).length = 0 := by decide
  unfold chainInv
  rw [h]
  have ht : List.take ([Block.Genesis].length - 0) [Block.Genesis] = [Block.Genesis] := by
    decide
  rw [ht]
  refine ⟨List.chain'_singleton _, ?_⟩
  intro b hb
  have hbg : b = Block.Genesis := by simpa using hb
  rw [hbg]
  decide

/-- Witness for C2: an honest miner is left unchanged. -/
theorem MaybeSelfishReveal_spec_C2_witness :
    (Miner.init 0 30 20000 false).MaybeSelfishReveal [Block.Genesis] 50
      = Miner.init 0 30 20000 false :=
  (MaybeSelfishReveal_spec_C2 (Miner.init 0 30 20000 false) [Block.Genesis] 50
    (by show chainInv [Block.Genesis]; exact chainInv_genesis_only)).1 rfl

/-- C7: after the drain loop finishes, cur_time is strictly below
next_block_time, whatever nonnegative intervals the event list supplies:
the assertion after the drain never fails from a reachable state
(cur_time at most next_block_time). -/
theorem drain_spec_C7 (cur : Int) (bcs : Nat) (evs : List (Nat × Int)) :
    ∀ (ms : List Miner) (nbt : Int) (res : List Miner × Int),
      (∀ e ∈ evs, 0 ≤ e.2) → cur ≤ nbt →
      drain cur bcs ms nbt evs = some res → cur < res.2 := by
  induction evs with
  | nil =>
    intro ms nbt res hnn hle hd
    rw [show drain cur bcs ms nbt [] = if cur = nbt then none else some (ms, nbt) from rfl] at hd
    by_cases hc : cur = nbt
    · rw [if_pos hc] at hd
      cases hd
    · rw [if_neg hc] at hd
      injection hd with h
      rw [← h]
      show cur < nbt
      omega
  | cons e t ih =>
    intro ms nbt res hnn hle hd
    obtain ⟨k, iv⟩ := e
    rw [show drain cur bcs ms nbt ((k, iv) :: t)
        = if cur = nbt then
            drain cur bcs (modifyIdx (fun m => m.FoundBlock nbt bcs) k ms) (nbt + iv) t
          else some (ms, nbt) from rfl] at hd
    by_cases hc : cur = nbt
    · rw [if_pos hc] at hd
      have hiv : (0 : Int) ≤ iv := hnn (k, iv) (by simp)
      exact ih _ _ _ (fun e2 he2 => hnn e2 (by simp [he2])) (by omega) hd
    · rw [if_neg hc] at hd
      injection hd with h
      rw [← h]
      show cur < nbt
      omega

/-- Witness for C7: draining with an empty event list at cur_time 0 and
next_block_time 5 finishes with cur_time below next_block_time. -/
theorem drain_spec_C7_witness :
    (0 : Int) < (((([] : List Miner), (5 : Int)) : List Miner × Int)).2 :=
  drain_spec_C7 0 1 [] [] 5 ([], 5) (by intro e he; cases he) (by decide) (by decide)

/-- The accumulator walk of PickFinder finds a miner whenever the walk is
entered with the accumulator at most the draw, the draw is below the
final accumulator value, and no 64-bit wraparound occurs. -/
theorem pickAux_isSome_of (r : Nat) :
    ∀ (ms : List Miner) (i : Nat),
      i ≤ r →
      r < i + (ms.map (fun m => m.perc)).sum * PERC_MULTIPLIER →
      i + (ms.map (fun m => m.perc)).sum * PERC_MULTIPLIER < U64_MOD →
      (pickAux r i ms).isSome = true
  | [], i => by
    intro hle hlt _
    simp only [List.map_nil, List.sum_nil, Nat.zero_mul, Nat.add_zero] at hlt
    omega
  | m :: ms, i => by
    intro hle hlt hmod
    have hsum : ((m :: ms).map (fun x => x.perc)).sum
        = m.perc + (ms.map (fun x => x.perc)).sum := by simp
    rw [hsum, Nat.add_mul] at hlt hmod
    have hj : (i + m.perc * PERC_MULTIPLIER) % U64_MOD = i + m.perc * PERC_MULTIPLIER :=
      Nat.mod_eq_of_lt (by omega)
    rw [show pickAux r i (m :: ms)
        = (if r < (i + m.perc * PERC_MULTIPLIER) % U64_MOD then some m
           else pickAux r ((i + m.perc * PERC_MULTIPLIER) % U64_MOD) ms) from rfl]
    rw [hj]
    by_cases hr : r < i + m.perc * PERC_MULTIPLIER
    · rw [if_pos hr]
      rfl
    · rw [if_neg hr]
      exact pickAux_isSome_of r ms (i + m.perc * PERC_MULTIPLIER)
        (by omega) (by omega) (by omega)

/-- Counterexample for C5: with a single miner holding 100 percent of the
hashrate (shares sum to 100), the draw r = 100 * (U64_MAX / 100), which
is 2^64 - 16, makes every accumulator comparison fail, so PickFinder
reaches the assertion (modelled as none) even though the percentages sum
to 100. -/
theorem PickFinder_counterexample_C5 :
    (([Miner.init 0 100 20000 false].map (fun m => m.perc)).sum = 100) ∧
    PickFinder [Miner.init 0 100 20000 false] 18446744073709551600 = none := by
  constructor
  · decide
  · decide

/-- C5 (amended): PickFinder returns the first miner whose running sum
i = sum of perc * (U64_MAX / 100) exceeds r; when the percentages sum to
100 the final accumulator is 100 * (U64_MAX / 100) = 2^64 - 16, so a
miner is returned for every draw r below that bound (and only the 16
largest draws can reach the assertion). -/
theorem PickFinder_amended_C5 (miners : List Miner) (r : Nat)
    (hsum : (miners.map (fun m => m.perc)).sum = 100)
    (hr : r < 100 * PERC_MULTIPLIER) :
    ∃ m, PickFinder miners r = some m := by
  have h := pickAux_isSome_of r miners 0 (Nat.zero_le r)
    (by rw [hsum]; omega)
    (by rw [hsum]; decide)
  exact Option.isSome_iff_exists.mp h

/-- Witness for C5 (amended): with one miner at 100 percent and draw 0,
PickFinder returns a miner. -/
theorem PickFinder_amended_C5_witness :
    ∃ m, PickFinder [Miner.init 0 100 20000 false] 0 = some m :=
  PickFinder_amended_C5 [Miner.init 0 100 20000 false] 0 (by decide) (by decide)

/-- Counterexample for C6: a draw of 900000 nanoseconds (0.9 ms) is
truncated to 0 ms by the code, while rounding the same draw to the
nearest millisecond as the claim states would give 1 ms. -/
theorem NextBlockInterval_counterexample_C6 :
    NextBlockIntervalModel 900000 = 0 ∧ llround ((900000 : ℚ) / 1000000) = 1 := by
  constructor
  · show Int.tdiv (llround 900000) 1000000 = 0
    have h : llround (900000 : ℚ) = 900000 := by
      unfold llround
      rw [if_pos (by norm_num)]
      norm_num
    rw [h]
    decide
  · unfold llround
    rw [if_pos (by norm_num)]
    norm_num

/-- C6 (amended): the mean passed to exporand is 600000 ms expressed in
nanoseconds; for any nonnegative draw the result is nonnegative and is
the draw rounded to the nearest nanosecond then truncated to whole
milliseconds (not rounded to the nearest millisecond). -/
theorem NextBlockInterval_amended_C6 (x : ℚ) (hx : 0 ≤ x) :
    BLOCK_INTERVAL_NS = 600000 * 1000000 ∧
    0 ≤ NextBlockIntervalModel x ∧
    1000000 * NextBlockIntervalModel x ≤ llround x ∧
    llround x < 1000000 * (NextBlockIntervalModel x + 1) := by
  have hll : 0 ≤ llround x := by
    unfold llround
    rw [if_pos hx]
    exact Int.le_floor.mpr (by push_cast; linarith)
  obtain ⟨n, hn⟩ := Int.eq_ofNat_of_zero_le hll
  have hmod : NextBlockIntervalModel x = ((n / 1000000 : Nat) : Int) := by
    unfold NextBlockIntervalModel
    rw [hn, show (1000000 : Int) = ((1000000 : Nat) : Int) from rfl, ← Int.ofNat_tdiv]
  refine ⟨by decide, ?_, ?_, ?_⟩
  · rw [hmod]
    exact Int.natCast_nonneg _
  · rw [hmod, hn]
    omega
  · rw [hmod, hn]
    omega

/-- Witness for C6 (amended): the draw 900000 ns yields a nonnegative
interval, truncated to milliseconds. -/
theorem NextBlockInterval_amended_C6_witness :
    BLOCK_INTERVAL_NS = 600000 * 1000000 ∧
    0 ≤ NextBlockIntervalModel 900000 ∧
    1000000 * NextBlockIntervalModel 900000 ≤ llround 900000 ∧
    llround 900000 < 1000000 * (NextBlockIntervalModel 900000 + 1) :=
  NextBlockInterval_amended_C6 900000 (by norm_num)

/-- A takeWhile prefix as long as the whole list means every element
satisfies the predicate. -/
theorem takeWhile_length_eq_all {α : Type} (p : α → Bool) :
    ∀ l : List α, (l.takeWhile p).length = l.length → ∀ x ∈ l, p x = true
  | [], _ => by simp
  | a :: t, h => by
    rw [List.takeWhile_cons] at h
    by_cases hp : p a = true
    · rw [if_pos hp] at h
      simp only [List.length_cons, Nat.add_right_cancel_iff] at h
      intro x hx
      rcases List.mem_cons.mp hx with hx1 | hx2
      · rw [hx1]
        exact hp
      · exact takeWhile_length_eq_all p t h x hx2
    · rw [if_neg hp] at h
      simp at h

theorem FoundBlock_is_selfish (m : Miner) (t : Int) (bcs : Nat) :
    (m.FoundBlock t bcs).is_selfish = m.is_selfish := by
  unfold Miner.FoundBlock
  split
  · split
    · rfl
    · rfl
  · rfl

theorem MaybeSelfishReveal_is_selfish (m : Miner) (best : List Block) (cur : Int) :
    (m.MaybeSelfishReveal best cur).is_selfish = m.is_selfish := by
  unfold Miner.MaybeSelfishReveal
  split
  · rfl
  · split
    · rfl
    · split
      · rfl
      · rfl

theorem MaybeReorg_is_selfish (m : Miner) (best : List Block) :
    (m.MaybeReorg best).is_selfish = m.is_selfish := by
  unfold Miner.MaybeReorg
  split
  · rfl
  · rfl

theorem SelfishBlocks_eq_zero_of_no_sentinel (m : Miner)
    (h : ∀ b ∈ m.chain, b.arrival ≠ SELFISH_ARRIVAL) : m.SelfishBlocks = 0 := by
  unfold Miner.SelfishBlocks
  cases hc : m.chain.reverse with
  | nil => rfl
  | cons a l =>
    have ha : a ∈ m.chain := by
      have h2 : a ∈ m.chain.reverse := by
        rw [hc]
        simp
      simpa using h2
    rw [List.takeWhile_cons, if_neg (by simpa using h a ha)]
    rfl

/-- In every restricted-reachable state, the chain of an honest miner holds no
block with the sentinel arrival. -/
theorem reachableB_honest_no_sentinel (m : Miner) (hr : ReachableB m) :
    m.is_selfish = false → ∀ b ∈ m.chain, b.arrival ≠ SELFISH_ARRIVAL := by
  induction hr with
  | init id perc prop selfish =>
    intro _ b hb
    have hbg : b = Block.Genesis := by simpa [Miner.init] using hb
    rw [hbg]
    decide
  | found m2 t bcs hne hr2 ih =>
    intro hs b hb
    have hs2 : m2.is_selfish = false := by
      rw [← FoundBlock_is_selfish m2 t bcs]
      exact hs
    have hchain : (m2.FoundBlock t bcs).chain = m2.chain ++ [⟨m2.id, t + m2.propagation⟩] := by
      simp [Miner.FoundBlock, hs2]
    rw [hchain] at hb
    rcases List.mem_append.mp hb with h1 | h2
    · exact ih hs2 b h1
    · have hbv : b = ⟨m2.id, t + m2.propagation⟩ := by simpa using h2
      rw [hbv]
      exact hne
  | reveal m2 best cur hr2 ih =>
    intro hs
    have hs2 : m2.is_selfish = false := by
      rw [← MaybeSelfishReveal_is_selfish m2 best cur]
      exact hs
    have hid : m2.MaybeSelfishReveal best cur = m2 := by
      simp [Miner.MaybeSelfishReveal, hs2]
    rw [hid]
    exact ih hs2
  | reorg m2 best hbest hr2 ih =>
    intro hs b hb
    have hs2 : m2.is_selfish = false := by
      rw [← MaybeReorg_is_selfish m2 best]
      exact hs
    by_cases hlen : best.length ≤ m2.chain.length
    · rw [show m2.MaybeReorg best = m2 from by simp [Miner.MaybeReorg, hlen]] at hb
      exact ih hs2 b hb
    · have hchain : (m2.MaybeReorg best).chain = best := by
        simp only [Miner.MaybeReorg, hlen, if_false]
        exact reorgAux_fst m2.id m2.chain best (by omega)
      rw [hchain] at hb
      exact hbest b hb

/-- Counterexample for C8: an honest miner reachable through FoundBlock
alone, with block_time chosen so that block_time + propagation equals the
sentinel arrival, ends with SelfishBlocks equal to 1, not 0. -/
theorem SelfishBlocks_counterexample_C8 :
    ((Miner.init 0 30 20000 false).FoundBlock (SELFISH_ARRIVAL - 20000) 1).is_selfish = false ∧
    ReachableF ((Miner.init 0 30 20000 false).FoundBlock (SELFISH_ARRIVAL - 20000) 1) ∧
    ((Miner.init 0 30 20000 false).FoundBlock (SELFISH_ARRIVAL - 20000) 1).SelfishBlocks = 1 :=
  ⟨by decide, ReachableF.found _ _ _ (ReachableF.init 0 30 20000 false), by decide⟩

/-- C8 (amended): SelfishBlocks is the length of the maximal contiguous
sentinel-arrival suffix of the chain; and an honest miner has
SelfishBlocks 0 in every state reachable from the constructor through
FoundBlock (with block_time + propagation distinct from the sentinel, as
in any simulation run), MaybeSelfishReveal, and MaybeReorg applied to
finite-arrival best chains. -/
theorem SelfishBlocks_spec_C8 (m : Miner) :
    (m.SelfishBlocks ≤ m.chain.length ∧
     (∀ j, m.chain.length - m.SelfishBlocks ≤ j → j < m.chain.length →
        (m.chain.getD j default).arrival = SELFISH_ARRIVAL) ∧
     (m.SelfishBlocks < m.chain.length →
        (m.chain.getD (m.chain.length - m.SelfishBlocks - 1) default).arrival
          ≠ SELFISH_ARRIVAL)) ∧
    (m.is_selfish = false → ReachableB m → m.SelfishBlocks = 0) :=
  ⟨⟨SelfishBlocks_le_length m,
    fun j h1 h2 => selfishSuffix_sentinel m j h1 h2,
    fun h => selfishSuffix_boundary m h⟩,
   fun hs hr => SelfishBlocks_eq_zero_of_no_sentinel m (reachableB_honest_no_sentinel m hr hs)⟩

/-- Witness for C8 (amended): the freshly constructed honest miner has
SelfishBlocks 0. -/
theorem SelfishBlocks_spec_C8_witness :
    (Miner.init 0 30 20000 false).SelfishBlocks = 0 :=
  (SelfishBlocks_spec_C8 (Miner.init 0 30 20000 false)).2 rfl
    (ReachableB.init 0 30 20000 false)

/-- Counterexample for C9: a miner whose published chain is just the
genesis block (the state right after construction, at time 0) makes
Miner.BlocksFoundShare divide zero by zero, an undefined value (NaN),
rather than yielding a zeroed share. -/
theorem Stats_counterexample_C9 :
    (Miner.init 0 30 20000 false).BlocksFoundShare 0 = none := by
  have h1 : (Miner.init 0 30 20000 false).chain.length
      - (Miner.init 0 30 20000 false).UnpublishedBlocks 0 = 1 := by decide
  show qdivOpt ((Miner.init 0 30 20000 false).BlocksFound 0 : ℚ)
      ((((Miner.init 0 30 20000 false).chain.length
        - (Miner.init 0 30 20000 false).UnpublishedBlocks 0 : Nat) : ℚ) - 1) = none
  rw [h1, qdivOpt, if_pos (by norm_num)]

/-- C9 (amended): MinerStats reports the count of the blocks of the miner in
the best chain and zeroed ratios when that count is 0, and otherwise the
two claimed ratios (well defined whenever the best chain has at least
two blocks); Miner.BlocksFoundShare equals the claimed ratio whenever at
least two blocks are published, but divides by zero when only the
genesis block is published. -/
theorem Stats_spec_C9 (m : Miner) (best : List Block) (cur : Int) :
    (MinerStats.make m best).blocks_found
      = (best.filter (fun b => b.miner_id == m.id)).length ∧
    ((best.filter (fun b => b.miner_id == m.id)).length = 0 →
      (MinerStats.make m best).blocks_share = some 0 ∧
      (MinerStats.make m best).stale_rate = some 0) ∧
    (0 < (best.filter (fun b => b.miner_id == m.id)).length → 2 ≤ best.length →
      (MinerStats.make m best).blocks_share
        = some (((best.filter (fun b => b.miner_id == m.id)).length : ℚ)
            / ((best.length : ℚ) - 1)) ∧
      (MinerStats.make m best).stale_rate
        = some ((m.stale_blocks : ℚ)
            / ((best.filter (fun b => b.miner_id == m.id)).length : ℚ))) ∧
    (2 ≤ m.chain.length - m.UnpublishedBlocks cur →
      m.BlocksFoundShare cur
        = some ((m.BlocksFound cur : ℚ)
            / (((m.chain.length - m.UnpublishedBlocks cur : Nat) : ℚ) - 1))) ∧
    (m.chain.length - m.UnpublishedBlocks cur = 1 →
      m.BlocksFoundShare cur = none) := by
  refine ⟨rfl, ?_, ?_, ?_, ?_⟩
  · intro h
    constructor
    · simp [MinerStats.make, h]
    · simp [MinerStats.make, h]
  · intro h hlen
    have hne : ¬ (best.filter (fun b => b.miner_id == m.id)).length = 0 := by omega
    have hden : ((best.length : ℚ) - 1) ≠ 0 := by
      have h2 : (2 : ℚ) ≤ (best.length : ℚ) := by exact_mod_cast hlen
      intro h0
      linarith
    have hden2 : ((best.filter (fun b => b.miner_id == m.id)).length : ℚ) ≠ 0 := by
      exact_mod_cast hne
    constructor
    · simp only [MinerStats.make, hne, if_false, qdivOpt, hden, if_neg hden]
    · simp only [MinerStats.make, hne, if_false, qdivOpt, if_neg hden2]
  · intro hpub
    have hden : (((m.chain.length - m.UnpublishedBlocks cur : Nat) : ℚ) - 1) ≠ 0 := by
      have h2 : (2 : ℚ) ≤ ((m.chain.length - m.UnpublishedBlocks cur : Nat) : ℚ) := by
        exact_mod_cast hpub
      intro h0
      linarith
    show qdivOpt (m.BlocksFound cur : ℚ)
        (((m.chain.length - m.UnpublishedBlocks cur : Nat) : ℚ) - 1) = _
    rw [qdivOpt, if_neg hden]
  · intro hpub
    show qdivOpt (m.BlocksFound cur : ℚ)
        (((m.chain.length - m.UnpublishedBlocks cur : Nat) : ℚ) - 1) = none
    rw [hpub]
    rw [qdivOpt, if_pos (by norm_num)]

/-- Witness for C9 (amended): for the fresh miner at time 0 against the
genesis-only best chain, the found count is 0 and both ratios are zero;
its own BlocksFoundShare is the divide-by-zero case. -/
theorem Stats_spec_C9_witness :
    (MinerStats.make (Miner.init 0 30 20000 false) [Block.Genesis]).blocks_share = some 0 ∧
    (MinerStats.make (Miner.init 0 30 20000 false) [Block.Genesis]).stale_rate = some 0 :=
  (Stats_spec_C9 (Miner.init 0 30 20000 false) [Block.Genesis] 0).2.1 (by decide)

/-- C10: a freshly constructed miner has exactly the genesis block as chain; and for any
miner whose chain begins with Genesis and any nonnegative cur_time, the
unpublished count is strictly below the chain length, so PublishedChain
is a nonempty prefix beginning with Genesis and the prefix extraction is
in bounds. -/
theorem PublishedChain_spec_C10 (id perc : Nat) (prop : Int) (selfish : Bool)
    (m : Miner) (cur : Int)
    (hg : m.chain.head? = some Block.Genesis) (hc : 0 ≤ cur) :
    (Miner.init id perc prop selfish).chain = [Block.Genesis] ∧
    m.UnpublishedBlocks cur < m.chain.length ∧
    m.PublishedChain cur ≠ [] ∧
    (m.PublishedChain cur).head? = some Block.Genesis := by
  have hne : m.chain ≠ [] := by
    intro h
    rw [h] at hg
    simp at hg
  obtain ⟨g, rest, hgr⟩ : ∃ g rest, m.chain = g :: rest := by
    cases hcc : m.chain with
    | nil => exact absurd hcc hne
    | cons a l => exact ⟨a, l, rfl⟩
  have hgenesis : g = Block.Genesis := by
    rw [hgr] at hg
    simpa using hg
  have hunp : m.UnpublishedBlocks cur < m.chain.length := by
    have hle : m.UnpublishedBlocks cur ≤ m.chain.length := by
      unfold Miner.UnpublishedBlocks
      calc (m.chain.reverse.takeWhile (fun b => decide (cur < b.arrival))).length
          ≤ m.chain.reverse.length := takeWhile_length_le _ _
        _ = m.chain.length := List.length_reverse _
    rcases Nat.lt_or_ge (m.UnpublishedBlocks cur) m.chain.length with h | h
    · exact h
    · exfalso
      have heq : (m.chain.reverse.takeWhile (fun b => decide (cur < b.arrival))).length
          = m.chain.reverse.length := by
        rw [List.length_reverse]
        unfold Miner.UnpublishedBlocks at hle h
        omega
      have hall := takeWhile_length_eq_all (fun b => decide (cur < b.arrival))
        m.chain.reverse heq
      have hgmem : Block.Genesis ∈ m.chain.reverse := by
        rw [hgr, hgenesis] at *
        simp
      have := hall Block.Genesis hgmem
      simp only [decide_eq_true_eq] at this
      rw [show Block.Genesis.arrival = 0 from rfl] at this
      omega
  obtain ⟨k2, hk2⟩ : ∃ k2, m.chain.length - m.UnpublishedBlocks cur = k2 + 1 :=
    ⟨m.chain.length - m.UnpublishedBlocks cur - 1, by omega⟩
  refine ⟨rfl, hunp, ?_, ?_⟩
  · show m.chain.take (m.chain.length - m.UnpublishedBlocks cur) ≠ []
    rw [hk2, hgr, List.take_succ_cons]
    simp
  · show (m.chain.take (m.chain.length - m.UnpublishedBlocks cur)).head? = some Block.Genesis
    rw [hk2, hgr, List.take_succ_cons, hgenesis]
    rfl

/-- Witness for C10: the freshly constructed miner at time 0. -/
theorem PublishedChain_spec_C10_witness :
    (Miner.init 1 2 3 true).chain = [Block.Genesis] ∧
    (Miner.init 1 2 3 true).UnpublishedBlocks 0 < (Miner.init 1 2 3 true).chain.length ∧
    (Miner.init 1 2 3 true).PublishedChain 0 ≠ [] ∧
    ((Miner.init 1 2 3 true).PublishedChain 0).head? = some Block.Genesis :=
  PublishedChain_spec_C10 1 2 3 true (Miner.init 1 2 3 true) 0 rfl (by decide)

/-! Facts about the best-chain scan. -/

theorem beats_iff (p b : List Block) :
    beats p b ↔ (b.length < p.length ∨ (p.length = b.length ∧ lastArrival p < lastArrival b)) := by
  unfold beats
  constructor
  · rintro (h | ⟨h1, h2, h3⟩)
    · left
      exact h
    · right
      exact ⟨h1, h3⟩
  · rintro (h | ⟨h1, h2⟩)
    · left
      exact h
    · right
      refine ⟨h1, ?_, h2⟩
      intro hp
      rw [hp] at h1 h2
      have hb : b = [] := List.eq_nil_of_length_eq_zero h1.symm
      rw [hb] at h2
      exact lt_irrefl _ h2

theorem beats_irrefl (b : List Block) : ¬ beats b b := by
  rw [beats_iff]
  omega

theorem beats_asymm (p b : List Block) : beats p b → ¬ beats b p := by
  rw [beats_iff, beats_iff]
  omega

theorem beats_trans (x y z : List Block) : beats x y → beats y z → beats x z := by
  rw [beats_iff, beats_iff, beats_iff]
  omega

theorem notBeats_trans (x y z : List Block) : ¬ beats x y → ¬ beats y z → ¬ beats x z := by
  rw [beats_iff, beats_iff, beats_iff]
  omega

theorem beats_of_beats_of_notBeats (p b r : List Block) :
    beats p b → ¬ beats p r → beats r b := by
  rw [beats_iff, beats_iff, beats_iff]
  omega

theorem beats_of_notBeats_of_beats (x y z : List Block) :
    ¬ beats x y → beats z y → beats z x := by
  rw [beats_iff, beats_iff, beats_iff]
  omega

theorem bestChainStep_eq (cur : Int) (best : List Block) (m : Miner) :
    bestChainStep cur best m
      = if beats (m.PublishedChain cur) best then m.PublishedChain cur else best := by
  by_cases h : beats (m.PublishedChain cur) best
  · rw [if_pos h]
    show (if (m.PublishedChain cur).length > best.length ∨
        ((m.PublishedChain cur).length = best.length ∧ m.PublishedChain cur ≠ [] ∧
          lastArrival (m.PublishedChain cur) < lastArrival best)
      then m.PublishedChain cur else best) = m.PublishedChain cur
    exact if_pos h
  · rw [if_neg h]
    show (if (m.PublishedChain cur).length > best.length ∨
        ((m.PublishedChain cur).length = best.length ∧ m.PublishedChain cur ≠ [] ∧
          lastArrival (m.PublishedChain cur) < lastArrival best)
      then m.PublishedChain cur else best) = best
    exact if_neg h

/-- The best-chain fold never produces a chain beaten by any scanned
published chain or by its start value, and it either returns the start
value (nothing beat it) or the published chain of a miner at some index
k, which strictly beats the start value and the published chain of every
earlier miner. -/
theorem bestFold_spec (cur : Int) :
    ∀ (l : List Miner) (b : List Block),
      (∀ m ∈ l, ¬ beats (m.PublishedChain cur) (List.foldl (bestChainStep cur) b l)) ∧
      ¬ beats b (List.foldl (bestChainStep cur) b l) ∧
      (List.foldl (bestChainStep cur) b l = b ∨
        ∃ k, ∃ hk : k < l.length,
          List.foldl (bestChainStep cur) b l = (l.get ⟨k, hk⟩).PublishedChain cur ∧
          beats (List.foldl (bestChainStep cur) b l) b ∧
          ∀ j, ∀ hj : j < l.length, j < k →
            beats (List.foldl (bestChainStep cur) b l) ((l.get ⟨j, hj⟩).PublishedChain cur))
  | [], b => ⟨by simp, beats_irrefl b, Or.inl rfl⟩
  | m :: t, b => by
    have ih := bestFold_spec cur t (bestChainStep cur b m)
    obtain ⟨ih1, ih2, ih3⟩ := ih
    rw [List.foldl_cons]
    by_cases hbm : beats (m.PublishedChain cur) b
    · have hstep : bestChainStep cur b m = m.PublishedChain cur := by
        rw [bestChainStep_eq, if_pos hbm]
      rw [hstep] at ih1 ih2 ih3 ⊢
      have hrb : beats (List.foldl (bestChainStep cur) (m.PublishedChain cur) t) b :=
        beats_of_beats_of_notBeats _ _ _ hbm ih2
      refine ⟨?_, beats_asymm _ _ hrb, ?_⟩
      · intro m2 hm2
        rcases List.mem_cons.mp hm2 with h1 | h2
        · rw [h1]
          exact ih2
        · exact ih1 m2 h2
      · rcases ih3 with h0 | ⟨k, hk, hek, hbk, hstab⟩
        · right
          refine ⟨0, by simp, h0, by rw [h0]; exact hbm, ?_⟩
          intro j hj hj0
          omega
        · right
          refine ⟨k + 1, by simpa using Nat.succ_lt_succ hk, hek,
            beats_trans _ _ _ hbk hbm, ?_⟩
          intro j hj hjk
          cases j with
          | zero => exact hbk
          | succ j2 => exact hstab j2 (by simpa using Nat.lt_of_succ_lt_succ hj) (by omega)
    · have hstep : bestChainStep cur b m = b := by
        rw [bestChainStep_eq, if_neg hbm]
      rw [hstep] at ih1 ih2 ih3 ⊢
      refine ⟨?_, ih2, ?_⟩
      · intro m2 hm2
        rcases List.mem_cons.mp hm2 with h1 | h2
        · rw [h1]
          exact notBeats_trans _ _ _ hbm ih2
        · exact ih1 m2 h2
      · rcases ih3 with h0 | ⟨k, hk, hek, hbk, hstab⟩
        · left
          exact h0
        · right
          refine ⟨k + 1, by simpa using Nat.succ_lt_succ hk, hek, hbk, ?_⟩
          intro j hj hjk
          cases j with
          | zero => exact beats_of_notBeats_of_beats _ _ _ hbm hbk
          | succ j2 => exact hstab j2 (by simpa using Nat.lt_of_succ_lt_succ hj) (by omega)

/-- C4: on a nonempty miner vector whose published chains are nonempty
(as at every step of the simulation loop), the best-chain scan returns
the published chain of some miner k, of maximal length among all
published chains, with minimal last-block arrival among those of maximal
length, and the scan is stable: every miner before k whose published
chain has the maximal length has a strictly later last-block arrival. -/
theorem BestChain_spec_C4 (miners : List Miner) (cur : Int)
    (hne : miners ≠ [])
    (hpub : ∀ m ∈ miners, m.PublishedChain cur ≠ []) :
    ∃ k, ∃ hk : k < miners.length,
      BestChain miners cur = (miners.get ⟨k, hk⟩).PublishedChain cur ∧
      (∀ m ∈ miners, (m.PublishedChain cur).length ≤ (BestChain miners cur).length) ∧
      (∀ m ∈ miners, (m.PublishedChain cur).length = (BestChain miners cur).length →
        lastArrival (BestChain miners cur) ≤ lastArrival (m.PublishedChain cur)) ∧
      (∀ j, ∀ hj : j < miners.length, j < k →
        ((miners.get ⟨j, hj⟩).PublishedChain cur).length = (BestChain miners cur).length →
        lastArrival (BestChain miners cur)
          < lastArrival ((miners.get ⟨j, hj⟩).PublishedChain cur)) := by
  obtain ⟨h1, h2, h3⟩ := bestFold_spec cur miners []
  have hBC : BestChain miners cur = List.foldl (bestChainStep cur) [] miners := rfl
  rcases h3 with h0 | ⟨k, hk, hek, hbk, hstab⟩
  · exfalso
    obtain ⟨m0, hm0⟩ : ∃ m0, m0 ∈ miners := by
      cases hcc : miners with
      | nil => exact absurd hcc hne
      | cons a l => exact ⟨a, by simp⟩
    have hb0 : beats (m0.PublishedChain cur) (List.foldl (bestChainStep cur) [] miners) := by
      rw [h0, beats_iff]
      left
      simpa using List.length_pos.mpr (hpub m0 hm0)
    exact h1 m0 hm0 hb0
  · refine ⟨k, hk, by rw [hBC]; exact hek, ?_, ?_, ?_⟩
    · intro m hm
      have hb := h1 m hm
      rw [beats_iff] at hb
      rw [hBC]
      omega
    · intro m hm hlen
      have hb := h1 m hm
      rw [beats_iff] at hb
      rw [hBC] at hlen ⊢
      omega
    · intro j hj hjk hlen
      have hb := hstab j hj hjk
      rw [beats_iff] at hb
      rw [hBC] at hlen ⊢
      omega

/-- Witness for C4: a single miner at time 0. -/
theorem BestChain_spec_C4_witness :
    ∃ k, ∃ hk : k < [Miner.init 0 100 20000 false].length,
      BestChain [Miner.init 0 100 20000 false] 0
        = ([Miner.init 0 100 20000 false].get ⟨k, hk⟩).PublishedChain 0 ∧
      (∀ m ∈ [Miner.init 0 100 20000 false],
        (m.PublishedChain 0).length ≤ (BestChain [Miner.init 0 100 20000 false] 0).length) ∧
      (∀ m ∈ [Miner.init 0 100 20000 false],
        (m.PublishedChain 0).length = (BestChain [Miner.init 0 100 20000 false] 0).length →
        lastArrival (BestChain [Miner.init 0 100 20000 false] 0)
          ≤ lastArrival (m.PublishedChain 0)) ∧
      (∀ j, ∀ hj : j < [Miner.init 0 100 20000 false].length, j < k →
        (([Miner.init 0 100 20000 false].get ⟨j, hj⟩).PublishedChain 0).length
          = (BestChain [Miner.init 0 100 20000 false] 0).length →
        lastArrival (BestChain [Miner.init 0 100 20000 false] 0)
          < lastArrival (([Miner.init 0 100 20000 false].get ⟨j, hj⟩).PublishedChain 0)) :=
  BestChain_spec_C4 [Miner.init 0 100 20000 false] 0 (by simp)
    (by
      intro m hm
      rw [List.mem_singleton.mp hm]
      decide)

end MiningSim
